import Mathlib

/-!
Verification of the movie-engine CSV tooling, chiefly
`scripts/dedup_ratings.py` (the newest-wins deduplication core) and
`scripts/filter_low_activity_users.py`.  Rows are modelled as ordered
field-name/value association lists, the retention table as an
association list from composite key to `(recency, record)`, and the
Python exception flow of `to_int_safe` as an `Except`-valued function.
-/

/-! ## Timestamp parsing (`to_int_safe`, dedup_ratings.py lines 47-62) -/

/-- Character-level whitespace strip, modelling how Python's `int()` and
`float()` ignore surrounding whitespace. -/
def stripSpaces (cs : List Char) : List Char :=
  ((cs.dropWhile Char.isWhitespace).reverse.dropWhile Char.isWhitespace).reverse

/-- Decimal digit run to a natural number. -/
def digitsToNat (cs : List Char) : Nat :=
  cs.foldl (fun a c => a * 10 + (c.toNat - 48)) 0

/-- Tail of a digit run after a leading digit, allowing single
grouping underscores strictly between digits (PEP 515): no leading,
trailing or doubled underscore. -/
def digitsTailU : List Char → Bool
  | [] => true
  | ['_'] => false
  | '_' :: d :: rest => d.isDigit && digitsTailU rest
  | d :: rest => d.isDigit && digitsTailU rest

/-- A nonempty run of decimal digits with optional single grouping
underscores strictly between digits, exactly the digit runs Python's
`int()` and `float()` accept (PEP 515). -/
def isDigitsU (cs : List Char) : Bool :=
  match cs with
  | [] => false
  | c :: rest => c.isDigit && digitsTailU rest

/-- Remove the grouping underscores before reading the value. -/
def stripUnderscores (cs : List Char) : List Char :=
  cs.filter (fun c => !(c == '_'))

/-- Unsigned integer literal parse (digits with PEP 515 underscores). -/
def natOfChars? (cs : List Char) : Option Nat :=
  if isDigitsU cs then some (digitsToNat (stripUnderscores cs)) else none

/-- Signed integer literal parse on characters: optional sign then digits. -/
def intOfChars? : List Char → Option Int
  | '-' :: rest => (natOfChars? rest).map (fun n => -(n : Int))
  | '+' :: rest => (natOfChars? rest).map (fun n => (n : Int))
  | cs => (natOfChars? cs).map (fun n => (n : Int))

/-- Model of Python `int(value)` on a string: strip whitespace, optional
sign, decimal digits with PEP 515 grouping underscores; anything else
raises (here: `none`). -/
def int_of_string? (s : String) : Option Int :=
  intOfChars? (stripSpaces s.data)

/-- Split a character list at the first occurrence of a separator
satisfying `p`; `none` if absent. -/
def splitAtChar? (p : Char → Bool) : List Char → Option (List Char × List Char)
  | [] => none
  | c :: rest =>
    if p c then some ([], rest)
    else (splitAtChar? p rest).map (fun q => (c :: q.1, q.2))

/-- Mantissa of a decimal literal: digit runs (PEP 515 underscores
allowed, but not adjacent to the decimal point) around an optional
decimal point, at least one digit overall.  Returns the combined digit
value and the number of fractional digits. -/
def mantissaOfChars? (cs : List Char) : Option (Nat × Nat) :=
  match splitAtChar? (· == '.') cs with
  | none => (natOfChars? cs).map (fun n => (n, 0))
  | some (ip, fp) =>
    if ((ip.isEmpty || isDigitsU ip) && (fp.isEmpty || isDigitsU fp))
        && !(ip.isEmpty && fp.isEmpty) then
      some (digitsToNat (stripUnderscores (ip ++ fp)), (stripUnderscores fp).length)
    else none

/-- Does `2 ^ e ≤ num / den` hold, for positive `num`, `den`? -/
def lePow2 (num den : Nat) (e : Int) : Bool :=
  if 0 ≤ e then den * 2 ^ e.toNat ≤ num else den ≤ num * 2 ^ (-e).toNat

/-- The binade `⌊log₂ (num / den)⌋` of a positive rational. -/
def ratLog2 (num den : Nat) : Int :=
  let e0 : Int := (Nat.log2 num : Int) - (Nat.log2 den : Int)
  if lePow2 num den e0 then e0 else e0 - 1

/-- Round the nonnegative rational `num / den` to the nearest IEEE-754
binary64 value (round half to even, subnormals included), as CPython's
`float()` does with a parsed literal: `none` on overflow to infinity,
otherwise `some (n, p)` for the exact value `n * 2 ^ p`. -/
def roundFloat? (num den : Nat) : Option (Nat × Int) :=
  if num = 0 then some (0, 0)
  else
    let e := ratLog2 num den
    let p : Int := max (e - 52) (-1074)
    let a := num * 2 ^ (max 0 (-p)).toNat
    let b := den * 2 ^ (max 0 p).toNat
    let q := a / b
    let rem := a % b
    let n := if b < 2 * rem then q + 1
             else if 2 * rem < b then q
             else if q % 2 = 0 then q else q + 1
    if lePow2 n 1 (1024 - p) then none else some (n, p)

/-- Truncate the nonnegative value `n * 2 ^ p` toward zero. -/
def truncPow2 (n : Nat) (p : Int) : Nat :=
  if 0 ≤ p then n * 2 ^ p.toNat else n / 2 ^ (-p).toNat

/-- The magnitude of Python `int(float(value))` for an unsigned
literal: parse the mantissa and optional exponent exactly, round to
the nearest binary64 as `float()` does, then truncate toward zero.
`none` when the literal is malformed or the rounded value overflows to
infinity — there the source's `int()` raises `OverflowError`, which
the caller's `except` turns into the warning fallback. -/
def truncOfUnsignedChars? (cs : List Char) : Option Nat :=
  match splitAtChar? (fun c => c == 'e' || c == 'E') cs with
  | none =>
    match mantissaOfChars? cs with
    | some m => (roundFloat? m.1 (10 ^ m.2)).map (fun v => truncPow2 v.1 v.2)
    | none => none
  | some (mant, ex) =>
    match mantissaOfChars? mant, intOfChars? ex with
    | some m, some e =>
      let sc : Int := e - (m.2 : Int)
      let num := m.1 * 10 ^ (max 0 sc).toNat
      let den := 10 ^ (max 0 (-sc)).toNat
      (roundFloat? num den).map (fun v => truncPow2 v.1 v.2)
    | _, _ => none

/-- Model of Python `int(float(value))`: parse a decimal literal,
round it to binary64, truncate toward zero.  `none` covers every case
where the composite raises — a malformed literal (`ValueError` from
`float()`), overflow to infinity (`OverflowError` from `int()`), and
the textual non-finite literals `inf`/`nan` whose later `int()` raises
— since all are caught alike by the caller. -/
def int_of_float_string? (s : String) : Option Int :=
  match stripSpaces s.data with
  | '-' :: rest => (truncOfUnsignedChars? rest).map (fun n => -(n : Int))
  | '+' :: rest => (truncOfUnsignedChars? rest).map (fun n => (n : Int))
  | cs => (truncOfUnsignedChars? cs).map (fun n => (n : Int))

/-- `to_int_safe` with the Python exception flow made explicit: each
`try` body is `Except`-valued and every `except` arm returns normally.
The `Bool` records whether the warning line was written to stderr. -/
def to_int_safe_exc (s : String) : Except Unit (Int × Bool) :=
  match int_of_string? s with
  | some n => Except.ok (n, false)
  | none =>
    match int_of_float_string? s with
    | some m => Except.ok (m, false)
    | none => Except.ok (0, true)

/-- The value/warning pair `to_int_safe` produces. -/
def to_int_safe_w (s : String) : Int × Bool :=
  match to_int_safe_exc s with
  | Except.ok p => p
  | Except.error _ => (0, true)

/-- The integer `to_int_safe` returns. -/
def to_int_safe (s : String) : Int :=
  (to_int_safe_w s).1

/-! ## Rows and the retention table (dedup_ratings.py lines 65-103) -/

/-- A CSV record as `csv.DictReader` yields it: an ordered mapping from
field name to field value. -/
abbrev Row := List (String × String)

/-- Python `row.get(col, "")`. -/
def rowGet (row : Row) (col : String) : String :=
  match row.find? (fun p => p.1 == col) with
  | some p => p.2
  | none => ""

/-- The composite key `(user, item)` extracted from a row. -/
def rowKey (ucol icol : String) (row : Row) : String × String :=
  (rowGet row ucol, rowGet row icol)

/-- The recency value extracted from a row: `to_int_safe(row.get(ts_col, ""))`. -/
def rowTs (tcol : String) (row : Row) : Int :=
  to_int_safe (rowGet row tcol)

/-- One entry of the retention table `best`: composite key paired with
the stored `(timestamp, row)` pair. -/
abbrev Entry := (String × String) × (Int × Row)

/-- The retention table `best`, as an insertion-ordered association list
(Python dicts preserve insertion order, and replacing a value keeps the
key's original position). -/
abbrev Table := List Entry

/-- `best.get(key)`. -/
def tblFind? (tbl : Table) (k : String × String) : Option (Int × Row) :=
  match tbl.find? (fun e => e.1 == k) with
  | some e => some e.2
  | none => none

/-- The per-row body of the scan loop: if the key is absent, store
`(ts, row)`; if present with stored timestamp `t0`, replace in place
iff `ts >= t0` (source line 102's `if ts >= existing_ts`). -/
def tblUpsert : Table → String × String → Int → Row → Table
  | [], k, t, r => [(k, (t, r))]
  | e :: rest, k, t, r =>
    if e.1 = k then
      (if e.2.1 ≤ t then (k, (t, r)) :: rest else e :: rest)
    else
      e :: tblUpsert rest k t r

/-- The full scan: fold every input row into the retention table. -/
def buildTable (ucol icol tcol : String) (rows : List Row) : Table :=
  rows.foldl (fun tbl row => tblUpsert tbl (rowKey ucol icol row) (rowTs tcol row) row) []

/-! ## Emitter (dedup_ratings.py lines 106-132) -/

/-- Stable insertion of an entry into a timestamp-sorted list: the new
element goes before the first entry with a greater-or-equal stored
timestamp never overtaking earlier equal timestamps. -/
def insertByTs (x : Entry) : List Entry → List Entry
  | [] => [x]
  | y :: ys => if x.2.1 ≤ y.2.1 then x :: y :: ys else y :: insertByTs x ys

/-- `items.sort(key=lambda it: it[1][0])`: Python's sort is stable, so it
is modelled by stable insertion sort on the stored timestamp. -/
def sortByTs : List Entry → List Entry
  | [] => []
  | x :: xs => insertByTs x (sortByTs xs)

/-- The writer loop: order the table entries (by stored timestamp when
`keep_order`, otherwise dict iteration order) and write the stored rows. -/
def emitRows (keep_order : Bool) (tbl : Table) : List Row :=
  (if keep_order then sortByTs tbl else tbl).map (fun e => e.2.2)

/-- The deduplicated row sequence `dedup_ratings` writes for a given
input row sequence. -/
def dedupRows (keep_order : Bool) (ucol icol tcol : String) (rows : List Row) : List Row :=
  emitRows keep_order (buildTable ucol icol tcol rows)

/-- The `(kept, total)` pair `dedup_ratings` returns: `kept = len(best)`
and `total` counts the scanned rows. -/
def dedupCounts (ucol icol tcol : String) (rows : List Row) : Nat × Nat :=
  ((buildTable ucol icol tcol rows).length, rows.length)

/-! ## The effectful shell of `dedup_ratings` and `main`
(dedup_ratings.py lines 72-86, 106, 125, 135-144) -/

/-- Fatal errors `dedup_ratings` can raise before producing output. -/
inductive DedupError where
  | inputNotFound
  | missingHeader
  | schemaMismatch (available : List String)
  deriving DecidableEq, Repr

/-- Output-side effects, in the order the source performs them:
`os.makedirs(os.path.dirname(outpath))`, then `open(outpath, "w")`. -/
inductive OutEffect where
  | mkdirParent
  | openOutput
  deriving DecidableEq, Repr

/-- An input CSV file: `none` header models a file with no header row. -/
structure CsvFile where
  header : Option (List String)
  rows : List Row
  deriving Repr

/-- `dedup_ratings` with its control flow made explicit: existence
check, header check, column-presence check (all before any output-side
effect), then scan, directory creation, output open and write.  Returns
the outcome together with the trace of output-side effects. -/
def dedup_ratings (inputExists : Bool) (file : CsvFile)
    (ucol icol tcol rcol : String) (keep_order : Bool) :
    Except DedupError ((Nat × Nat) × List Row) × List OutEffect :=
  if !inputExists then
    (Except.error DedupError.inputNotFound, [])
  else
    match file.header with
    | none => (Except.error DedupError.missingHeader, [])
    | some fns =>
      if ¬ (ucol ∈ fns ∧ icol ∈ fns ∧ tcol ∈ fns ∧ rcol ∈ fns) then
        (Except.error (DedupError.schemaMismatch fns), [])
      else
        (Except.ok (dedupCounts ucol icol tcol file.rows,
                    dedupRows keep_order ucol icol tcol file.rows),
         [OutEffect.mkdirParent, OutEffect.openOutput])

/-- `main`'s call into `dedup_ratings` (source line 139): the positional
arguments are passed in the order `user_col, item_col, rating_col,
timestamp_col`, although the callee's parameters are
`user_col, item_col, ts_col, rating_col` — `rating_col` lands in the
`ts_col` position and vice versa. -/
def main_run (inputExists : Bool) (file : CsvFile)
    (user_col item_col timestamp_col rating_col : String) (keep_order : Bool) :
    Except DedupError ((Nat × Nat) × List Row) × List OutEffect :=
  dedup_ratings inputExists file user_col item_col rating_col timestamp_col keep_order

/-- Default column names from `parse_args` (dedup_ratings.py lines 39-42). -/
def defaultCols : String × String × String × String :=
  ("userId", "movieId", "timestamp", "rating")

/-! ## `filter_low_activity_users.py` (lines 43-87) -/

/-- Pass 1, `count_users`: per-user occurrence counts built by folding
`counts[uid] += 1` over the rows. -/
def count_users (ucol : String) (rows : List Row) : String → Nat :=
  rows.foldl (fun counts row =>
    fun u => if u = rowGet row ucol then counts u + 1 else counts u) (fun _ => 0)

/-- `keep_users` membership: the user's count meets the threshold
(`c >= threshold`; a user appearing in a row always has count ≥ 1, so
set membership coincides with the count test). -/
def keepUser (ucol : String) (rows : List Row) (threshold : Int) (u : String) : Bool :=
  threshold ≤ (count_users ucol rows u : Int)

/-- The body shared by both write loops: stream a row, bump `total`,
and write it (bumping `kept`) iff its user is in `keep_users`. -/
def filterLoopStep (ucol : String) (keep : String → Bool)
    (st : List Row × Nat × Nat) (row : Row) : List Row × Nat × Nat :=
  if keep (rowGet row ucol) then
    (st.1 ++ [row], st.2.1 + 1, st.2.2 + 1)
  else
    (st.1, st.2.1, st.2.2 + 1)

/-- Pass 2 of `filter_users`: the source has two textually identical
streaming loops, one per branch of `if keep_order`.  Returns
`(written rows, kept, total)`. -/
def filter_users (ucol : String) (threshold : Int) (keep_order : Bool)
    (rows : List Row) : List Row × Nat × Nat :=
  let keep := keepUser ucol rows threshold
  if keep_order then
    rows.foldl (filterLoopStep ucol keep) ([], 0, 0)
  else
    rows.foldl (filterLoopStep ucol keep) ([], 0, 0)

/-- Combining one row into the optional stored pair for its key. -/
def combineO (acc : Option (Int × Row)) (t : Int) (r : Row) : Option (Int × Row) :=
  match acc with
  | none => some (t, r)
  | some (t0, r0) => if t0 ≤ t then some (t, r) else some (t0, r0)

/-- The per-row scan step of `dedup_ratings`. -/
def dedupStep (ucol icol tcol : String) (tbl : Table) (row : Row) : Table :=
  tblUpsert tbl (rowKey ucol icol row) (rowTs tcol row) row

/-- Append a key if it is not already present. -/
def addKey (ks : List (String × String)) (k : String × String) : List (String × String) :=
  if k ∈ ks then ks else ks ++ [k]

/-- The entry the scan makes for a row. -/
def mkEntry (ucol icol tcol : String) (r : Row) : Entry :=
  (rowKey ucol icol r, (rowTs tcol r, r))

/-! ## Example data (the spec's concrete scenario, section 8, and
counterexample rows) -/

def exR1 : Row := [("userId", "1"), ("movieId", "10"), ("rating", "4"), ("timestamp", "100")]

def exR2 : Row := [("userId", "1"), ("movieId", "10"), ("rating", "5"), ("timestamp", "200")]

def exR3 : Row := [("userId", "2"), ("movieId", "20"), ("rating", "3"), ("timestamp", "50")]

/-- Two rows with the same composite key and the same timestamp but
different rating values. -/
def cexA : Row := [("u", "1"), ("i", "1"), ("t", "5"), ("r", "a")]

def cexB : Row := [("u", "1"), ("i", "1"), ("t", "5"), ("r", "b")]

/-- Duplicate-key pair where the row with the older timestamp carries
the larger rating value. -/
def bugR1 : Row := [("userId", "1"), ("movieId", "10"), ("rating", "5"), ("timestamp", "100")]

def bugR2 : Row := [("userId", "1"), ("movieId", "10"), ("rating", "4"), ("timestamp", "200")]

def bugFile : CsvFile :=
  ⟨some ["userId", "movieId", "rating", "timestamp"], [bugR1, bugR2]⟩

/-- A file whose header lacks the `timestamp` column. -/
def noTsFile : CsvFile :=
  ⟨some ["userId", "movieId", "rating"],
   [[("userId", "1"), ("movieId", "10"), ("rating", "4")]]⟩

/-! ## Helper lemmas: the retention table -/

theorem tblFind?_nil (k : String × String) : tblFind? [] k = none := rfl

theorem tblFind?_cons (e : Entry) (tbl : Table) (k : String × String) :
    tblFind? (e :: tbl) k = if e.1 = k then some e.2 else tblFind? tbl k := by
  simp only [tblFind?, List.find?]
  by_cases h : e.1 = k
  · simp [h]
  · simp [h, beq_eq_false_iff_ne.2 h]

theorem tblFind?_upsert (tbl : Table) (k k' : String × String) (t : Int) (r : Row) :
    tblFind? (tblUpsert tbl k t r) k' =
      if k = k' then combineO (tblFind? tbl k) t r else tblFind? tbl k' := by
  induction tbl with
  | nil =>
    by_cases h : k = k' <;> simp [tblUpsert, tblFind?_nil, tblFind?_cons, combineO, h]
  | cons e rest ih =>
    obtain ⟨ek, et, er⟩ := e
    by_cases he : ek = k
    · subst he
      by_cases ht : et ≤ t
      · by_cases h : ek = k'
        · subst h
          simp [tblUpsert, ht, tblFind?_cons, combineO]
        · simp [tblUpsert, ht, tblFind?_cons, h]
      · by_cases h : ek = k'
        · subst h
          simp [tblUpsert, ht, tblFind?_cons, combineO]
        · simp [tblUpsert, ht, tblFind?_cons, h]
    · by_cases he' : ek = k'
      · subst he'
        have h : ¬ ek = k := he
        have h' : ¬ k = ek := fun hk => h hk.symm
        simp [tblUpsert, he, tblFind?_cons, h']
      · by_cases h : k = k'
        · subst h
          simp [tblUpsert, he, tblFind?_cons, he', ih]
        · simp [tblUpsert, he, tblFind?_cons, he', ih, h]

/-- Upserting an absent key appends the new entry at the end. -/
theorem tblUpsert_absent (tbl : Table) (k : String × String) (t : Int) (r : Row)
    (h : tblFind? tbl k = none) : tblUpsert tbl k t r = tbl ++ [(k, (t, r))] := by
  induction tbl with
  | nil => simp [tblUpsert]
  | cons e rest ih =>
    rw [tblFind?_cons] at h
    by_cases he : e.1 = k
    · simp [he] at h
    · simp [he] at h
      simp [tblUpsert, he, ih h]

/-- Upserting with a strictly older timestamp leaves the table unchanged. -/
theorem tblUpsert_stale (tbl : Table) (k : String × String) (t t0 : Int) (r r0 : Row)
    (h : tblFind? tbl k = some (t0, r0)) (hlt : t < t0) :
    tblUpsert tbl k t r = tbl := by
  induction tbl with
  | nil => simp [tblFind?_nil] at h
  | cons e rest ih =>
    obtain ⟨ek, et, er⟩ := e
    rw [tblFind?_cons] at h
    by_cases he : ek = k
    · simp only [he, if_pos rfl] at h
      have het : et = t0 := by
        simpa using congrArg (fun o => (Option.getD o (0, [])).1) h
      simp [tblUpsert, he, het, not_le.mpr hlt]
    · simp only [show ((ek, et, er) : Entry).1 = ek from rfl, he, if_neg he] at h
      simp [tblUpsert, he, ih h]

theorem buildTable_eq_foldl (ucol icol tcol : String) (rows : List Row) :
    buildTable ucol icol tcol rows = rows.foldl (dedupStep ucol icol tcol) [] := rfl

/-- The stored pair for a key after scanning `rows` is the `combineO`
fold over exactly the rows carrying that key. -/
theorem tblFind?_foldl (ucol icol tcol : String) (rows : List Row) (tbl : Table)
    (k : String × String) :
    tblFind? (rows.foldl (dedupStep ucol icol tcol) tbl) k =
      (rows.filter (fun r => decide (rowKey ucol icol r = k))).foldl
        (fun acc r => combineO acc (rowTs tcol r) r) (tblFind? tbl k) := by
  induction rows generalizing tbl with
  | nil => rfl
  | cons x xs ih =>
    rw [List.foldl_cons, ih]
    by_cases hk : rowKey ucol icol x = k
    · simp [List.filter_cons, hk, dedupStep, tblFind?_upsert]
    · simp [List.filter_cons, hk, dedupStep, tblFind?_upsert]

/-- The `combineO` fold over a nonempty list of rows yields a row of the
list with the maximum recency, the last-encountered one among ties. -/
theorem combineO_foldl_winner (tcol : String) (l : List Row) (hl : l ≠ []) :
    ∃ r, l.foldl (fun acc x => combineO acc (rowTs tcol x) x) none = some (rowTs tcol r, r) ∧
      r ∈ l ∧ (∀ x ∈ l, rowTs tcol x ≤ rowTs tcol r) ∧
      (l.filter (fun x => decide (rowTs tcol x = rowTs tcol r))).getLast? = some r := by
  induction l using List.reverseRecOn with
  | nil => cases hl rfl
  | append_singleton xs x ih =>
    rcases eq_or_ne xs [] with hxs | hxs
    · subst hxs
      refine ⟨x, ?_, ?_, ?_, ?_⟩ <;> simp [combineO]
    · obtain ⟨r, hfold, hmem, hmax, hlast⟩ := ih hxs
      rw [List.foldl_append, hfold, List.foldl_cons, List.foldl_nil]
      by_cases hle : rowTs tcol r ≤ rowTs tcol x
      · refine ⟨x, by simp [combineO, hle], by simp, ?_, ?_⟩
        · intro y hy
          rcases List.mem_append.1 hy with hy | hy
          · exact le_trans (hmax y hy) hle
          · simp only [List.mem_singleton] at hy
            subst hy; exact le_refl _
        · rw [List.filter_append]
          simp [List.getLast?_concat]
      · refine ⟨r, by simp [combineO, hle], List.mem_append_left _ hmem, ?_, ?_⟩
        · intro y hy
          rcases List.mem_append.1 hy with hy | hy
          · exact hmax y hy
          · simp only [List.mem_singleton] at hy
            subst hy; exact le_of_lt (not_le.1 hle)
        · rw [List.filter_append]
          have hx : rowTs tcol x ≠ rowTs tcol r := ne_of_lt (not_le.1 hle)
          simp [List.filter_singleton, hx, hlast]

/-! ## C1 -/

/-- C1: an insert into the retention table stores the new pair
unconditionally when the key is absent, and replaces the stored entry
iff the new recency is `≥` the stored one; consequently the retained
row for a key is one of maximum recency among the rows with that key,
the last-encountered among those attaining the maximum. -/
theorem retention_insert_newest_wins (ucol icol tcol : String) (rows : List Row)
    (k : String × String) :
    (∀ (tbl : Table) (t : Int) (r : Row),
        (tblFind? tbl k = none → tblUpsert tbl k t r = tbl ++ [(k, (t, r))]) ∧
        (∀ t0 r0, tblFind? tbl k = some (t0, r0) →
          (t0 ≤ t → tblFind? (tblUpsert tbl k t r) k = some (t, r)) ∧
          (t < t0 → tblUpsert tbl k t r = tbl))) ∧
    (rows.filter (fun r => decide (rowKey ucol icol r = k)) ≠ [] →
      ∃ r, r ∈ rows.filter (fun x => decide (rowKey ucol icol x = k)) ∧
        tblFind? (buildTable ucol icol tcol rows) k = some (rowTs tcol r, r) ∧
        (∀ x ∈ rows.filter (fun x => decide (rowKey ucol icol x = k)),
          rowTs tcol x ≤ rowTs tcol r) ∧
        ((rows.filter (fun x => decide (rowKey ucol icol x = k))).filter
          (fun x => decide (rowTs tcol x = rowTs tcol r))).getLast? = some r) := by
  constructor
  · intro tbl t r
    refine ⟨tblUpsert_absent tbl k t r, ?_⟩
    intro t0 r0 h0
    constructor
    · intro hle
      rw [tblFind?_upsert, if_pos rfl, h0]
      simp [combineO, hle]
    · intro hlt
      exact tblUpsert_stale tbl k t t0 r r0 h0 hlt
  · intro hne
    obtain ⟨r, hfold, hmem, hmax, hlast⟩ :=
      combineO_foldl_winner tcol (rows.filter (fun x => decide (rowKey ucol icol x = k))) hne
    refine ⟨r, hmem, ?_, hmax, hlast⟩
    rw [buildTable_eq_foldl, tblFind?_foldl, tblFind?_nil, hfold]

/-- Witness for C1 at concrete inputs: a fresh key is appended, an
equal-or-newer timestamp replaces, a strictly older one is ignored. -/
theorem retention_insert_newest_wins_witness :
    tblUpsert [] ("1", "10") 100 exR1 = [] ++ [(("1", "10"), (100, exR1))] ∧
    tblFind? (tblUpsert [(("1", "10"), (100, exR1))] ("1", "10") 200 exR2) ("1", "10") =
      some (200, exR2) ∧
    tblUpsert [(("1", "10"), (200, exR2))] ("1", "10") 100 exR1 =
      [(("1", "10"), (200, exR2))] :=
  ⟨((retention_insert_newest_wins "userId" "movieId" "timestamp" [] ("1", "10")).1
      [] 100 exR1).1 rfl,
   (((retention_insert_newest_wins "userId" "movieId" "timestamp" [] ("1", "10")).1
      [(("1", "10"), (100, exR1))] 200 exR2).2 100 exR1 (by decide)).1 (by decide),
   (((retention_insert_newest_wins "userId" "movieId" "timestamp" [] ("1", "10")).1
      [(("1", "10"), (200, exR2))] 100 exR1).2 200 exR2 (by decide)).2 (by decide)⟩

/-! ## C3 -/

/-- Counterexample to C3 as stated: with two distinct rows sharing key
and recency, swapping the input order changes the retained record
(the `>=` comparison makes the later-encountered row win ties). -/
theorem dedup_perm_counterexample :
    List.Perm [cexA, cexB] [cexB, cexA] ∧
    tblFind? (buildTable "u" "i" "t" [cexA, cexB]) ("1", "1") ≠
      tblFind? (buildTable "u" "i" "t" [cexB, cexA]) ("1", "1") ∧
    dedupRows false "u" "i" "t" [cexA, cexB] ≠ dedupRows false "u" "i" "t" [cexB, cexA] :=
  ⟨List.Perm.swap cexB cexA [], by decide, by decide⟩

/-- C3 amended: permuting the input rows never changes the retained
record for any composite key, provided no two distinct rows share both
a composite key and a recency value (on ties between distinct rows the
later-encountered row wins, so the retained record does depend on
input order). -/
theorem dedup_perm_invariant_of_untied (ucol icol tcol : String) (l₁ l₂ : List Row)
    (hperm : List.Perm l₁ l₂)
    (huniq : ∀ a ∈ l₁, ∀ b ∈ l₁, rowKey ucol icol a = rowKey ucol icol b →
      rowTs tcol a = rowTs tcol b → a = b) :
    ∀ k, tblFind? (buildTable ucol icol tcol l₁) k =
      tblFind? (buildTable ucol icol tcol l₂) k := by
  intro k
  have hpf : List.Perm (l₁.filter (fun x => decide (rowKey ucol icol x = k)))
      (l₂.filter (fun x => decide (rowKey ucol icol x = k))) := hperm.filter _
  rcases eq_or_ne (l₁.filter (fun x => decide (rowKey ucol icol x = k))) [] with h1 | h1
  · have h2 : l₂.filter (fun x => decide (rowKey ucol icol x = k)) = [] := by
      have h := hpf
      rw [h1] at h
      exact List.Perm.eq_nil h.symm
    rw [buildTable_eq_foldl, tblFind?_foldl, tblFind?_nil, h1,
        buildTable_eq_foldl, tblFind?_foldl, tblFind?_nil, h2]
  · have h2 : l₂.filter (fun x => decide (rowKey ucol icol x = k)) ≠ [] := by
      intro h
      have hp := hpf
      rw [h] at hp
      exact h1 (List.Perm.eq_nil hp)
    obtain ⟨r₁, hf₁, hm₁, hmax₁, -⟩ := combineO_foldl_winner tcol _ h1
    obtain ⟨r₂, hf₂, hm₂, hmax₂, -⟩ := combineO_foldl_winner tcol _ h2
    have hr₁l : r₁ ∈ l₁ := (List.mem_filter.1 hm₁).1
    have hr₂f₁ : r₂ ∈ l₁.filter (fun x => decide (rowKey ucol icol x = k)) :=
      hpf.symm.subset hm₂
    have hr₂l : r₂ ∈ l₁ := (List.mem_filter.1 hr₂f₁).1
    have hk₁ : rowKey ucol icol r₁ = k := of_decide_eq_true (List.mem_filter.1 hm₁).2
    have hk₂ : rowKey ucol icol r₂ = k := of_decide_eq_true (List.mem_filter.1 hr₂f₁).2
    have hts : rowTs tcol r₁ = rowTs tcol r₂ :=
      le_antisymm (hmax₂ r₁ (hpf.subset hm₁)) (hmax₁ r₂ hr₂f₁)
    have hreq : r₁ = r₂ := huniq r₁ hr₁l r₂ hr₂l (hk₁.trans hk₂.symm) hts
    rw [buildTable_eq_foldl, tblFind?_foldl, tblFind?_nil, hf₁,
        buildTable_eq_foldl, tblFind?_foldl, tblFind?_nil, hf₂, hreq]

/-- Witness for the amended C3: a concrete permutation of three untied
rows retains the same record. -/
theorem dedup_perm_invariant_of_untied_witness :
    tblFind? (buildTable "userId" "movieId" "timestamp" [exR1, exR2, exR3]) ("1", "10") =
      tblFind? (buildTable "userId" "movieId" "timestamp" [exR2, exR1, exR3]) ("1", "10") :=
  dedup_perm_invariant_of_untied "userId" "movieId" "timestamp" _ _
    (List.Perm.swap exR2 exR1 [exR3]) (by decide) ("1", "10")

/-! ## C2 -/

/-- C2 fails on the code: `main` (source line 139) passes `rating_col`
into `dedup_ratings`' `ts_col` parameter and `timestamp_col` into
`rating_col`, so the newest-wins reduction parses its recency from the
rating column.  On the default column names, `main` retains the row
with timestamp `"100"` (rating `"5"`), while `dedup_ratings` invoked
with the parameters in their declared order retains the row with
timestamp `"200"` as the spec describes. -/
theorem main_run_parses_recency_from_rating_col :
    (main_run true bugFile "userId" "movieId" "timestamp" "rating" false).1 =
      Except.ok ((1, 2), [bugR1]) ∧
    rowGet bugR1 "timestamp" = "100" ∧
    rowGet bugR2 "timestamp" = "200" ∧
    (dedup_ratings true bugFile "userId" "movieId" "timestamp" "rating" false).1 =
      Except.ok ((1, 2), [bugR2]) :=
  ⟨by rfl, by rfl, by rfl, by rfl⟩

/-! ## C4 -/

/-- Counterexample to C4 as stated: the fallback value for an
unparsable timestamp is `0`, which is not a minimum over everything a
parsable string can yield — `"-5"` parses to `-5 < 0`, so the
unparsable `"N/A"` is treated as newer than it. -/
theorem to_int_safe_fallback_not_minimal :
    to_int_safe "N/A" = 0 ∧
    int_of_string? "-5" = some (-5) ∧
    to_int_safe "-5" = -5 ∧
    ¬ to_int_safe "N/A" ≤ to_int_safe "-5" := by
  decide

/-- C4 amended: recency parsing attempts an integer parse, then a
decimal parse truncated toward zero, and on failure of both emits a
warning and yields `0` — a value no greater than any recency parsed
from a string with a nonnegative integer value (so an unparsable
timestamp is older than any conventional epoch timestamp), though not
below negative parsable timestamps. -/
theorem to_int_safe_cascade (s : String) :
    (∀ n, int_of_string? s = some n → to_int_safe_w s = (n, false)) ∧
    (∀ m, int_of_string? s = none → int_of_float_string? s = some m →
      to_int_safe_w s = (m, false)) ∧
    (int_of_string? s = none → int_of_float_string? s = none →
      to_int_safe_w s = (0, true)) ∧
    (∀ t n, int_of_string? s = none → int_of_float_string? s = none →
      int_of_string? t = some n → 0 ≤ n → to_int_safe s ≤ to_int_safe t) := by
  refine ⟨?_, ?_, ?_, ?_⟩
  · intro n h
    simp [to_int_safe_w, to_int_safe_exc, h]
  · intro m h1 h2
    simp [to_int_safe_w, to_int_safe_exc, h1, h2]
  · intro h1 h2
    simp [to_int_safe_w, to_int_safe_exc, h1, h2]
  · intro t n h1 h2 h3 hn
    simp [to_int_safe, to_int_safe_w, to_int_safe_exc, h1, h2, h3, hn]

/-- Witness for the amended C4: `"N/A"` fails both parses, yields `0`
with a warning, and compares `≤` against the parsable `"100"`. -/
theorem to_int_safe_cascade_witness :
    to_int_safe_w "N/A" = (0, true) ∧ to_int_safe "N/A" ≤ to_int_safe "100" :=
  ⟨(to_int_safe_cascade "N/A").2.2.1 (by decide) (by decide),
   (to_int_safe_cascade "N/A").2.2.2 "100" 100 (by decide) (by decide) (by decide)
     (by decide)⟩

/-! ## C9 -/

/-- C9: `to_int_safe` is total — in the explicit-exception model every
branch returns normally, so the result is always `Except.ok` of the
value/warning pair and a recency parse failure can never abort the run. -/
theorem to_int_safe_total (s : String) :
    to_int_safe_exc s = Except.ok (to_int_safe_w s) := by
  rcases h1 : int_of_string? s with _ | n
  · rcases h2 : int_of_float_string? s with _ | m <;>
      simp [to_int_safe_w, to_int_safe_exc, h1, h2]
  · simp [to_int_safe_w, to_int_safe_exc, h1]

/-! ## C5 -/

/-- C5: a missing required column makes `dedup_ratings` fail with the
schema error listing the available columns, with an empty output-effect
trace — the output path is never opened, no directory is created, and
no rows are produced. -/
theorem dedup_schema_error_before_output (file : CsvFile) (fns : List String)
    (ucol icol tcol rcol : String) (keep : Bool)
    (hh : file.header = some fns)
    (hmiss : ucol ∉ fns ∨ icol ∉ fns ∨ tcol ∉ fns ∨ rcol ∉ fns) :
    dedup_ratings true file ucol icol tcol rcol keep =
      (Except.error (DedupError.schemaMismatch fns), []) := by
  have hm : ¬ (ucol ∈ fns ∧ icol ∈ fns ∧ tcol ∈ fns ∧ rcol ∈ fns) := by
    rcases hmiss with h | h | h | h <;> intro hc <;>
      [exact h hc.1; exact h hc.2.1; exact h hc.2.2.1; exact h hc.2.2.2]
  simp [dedup_ratings, hh, hm]

/-- Witness for C5: the default `timestamp` column is absent, so the
run fails with the schema error and performs no output-side effect. -/
theorem dedup_schema_error_before_output_witness :
    dedup_ratings true noTsFile "userId" "movieId" "timestamp" "rating" false =
      (Except.error (DedupError.schemaMismatch ["userId", "movieId", "rating"]), []) :=
  dedup_schema_error_before_output noTsFile ["userId", "movieId", "rating"]
    "userId" "movieId" "timestamp" "rating" false rfl (by decide)

/-! ## Helper lemmas: table size versus distinct keys -/

theorem keys_upsert (tbl : Table) (k : String × String) (t : Int) (r : Row) :
    (tblUpsert tbl k t r).map Prod.fst = addKey (tbl.map Prod.fst) k := by
  induction tbl with
  | nil => simp [tblUpsert, addKey]
  | cons e rest ih =>
    by_cases he : e.1 = k
    · subst he
      by_cases ht : e.2.1 ≤ t <;> simp [tblUpsert, ht, addKey]
    · have hne : ¬ k = e.1 := fun h => he h.symm
      by_cases hk : k ∈ rest.map Prod.fst <;>
        simp [tblUpsert, he, ih, addKey, hk, hne]

theorem keys_foldl (ucol icol tcol : String) (rows : List Row) (tbl : Table) :
    (rows.foldl (dedupStep ucol icol tcol) tbl).map Prod.fst =
      (rows.map (rowKey ucol icol)).foldl addKey (tbl.map Prod.fst) := by
  induction rows generalizing tbl with
  | nil => rfl
  | cons x xs ih => simp [dedupStep, ih, keys_upsert]

theorem addKey_foldl_length_le (l ks : List (String × String)) :
    (l.foldl addKey ks).length ≤ ks.length + l.length := by
  induction l generalizing ks with
  | nil => simp
  | cons k rest ih =>
    rw [List.foldl_cons]
    refine le_trans (ih (addKey ks k)) ?_
    by_cases hk : k ∈ ks <;> simp [addKey, hk] <;> omega

theorem addKey_foldl_length_eq_iff (l ks : List (String × String)) :
    (l.foldl addKey ks).length = ks.length + l.length ↔
      l.Nodup ∧ ∀ x ∈ l, x ∉ ks := by
  induction l generalizing ks with
  | nil => simp
  | cons k rest ih =>
    rw [List.foldl_cons]
    by_cases hk : k ∈ ks
    · have hle := addKey_foldl_length_le rest (addKey ks k)
      have hlen : (addKey ks k).length = ks.length := by simp [addKey, hk]
      constructor
      · intro h
        rw [hlen] at hle
        simp only [List.length_cons] at h
        omega
      · rintro ⟨-, hf⟩
        exact absurd hk (hf k (List.mem_cons_self k rest))
    · have hlen : (addKey ks k).length = ks.length + 1 := by simp [addKey, hk]
      have harith : ks.length + (k :: rest).length = (addKey ks k).length + rest.length := by
        simp only [hlen, List.length_cons]
        omega
      rw [harith, ih (addKey ks k)]
      constructor
      · rintro ⟨hn, hf⟩
        refine ⟨List.nodup_cons.2 ⟨fun hkr => ?_, hn⟩, ?_⟩
        · exact (hf k hkr) (by simp [addKey, hk])
        · intro x hx
          rcases List.mem_cons.1 hx with hx | hx
          · subst hx; exact hk
          · intro hxks
            exact hf x hx (by simp [addKey, hk, hxks])
      · rintro ⟨hn, hf⟩
        obtain ⟨hkr, hn'⟩ := List.nodup_cons.1 hn
        refine ⟨hn', ?_⟩
        intro x hx hxadd
        have hxor : x ∈ ks ∨ x = k := by
          have hx' : x ∈ ks ++ [k] := by simpa [addKey, hk] using hxadd
          simpa using hx'
        rcases hxor with h | h
        · exact hf x (List.mem_cons_of_mem _ hx) h
        · subst h; exact hkr hx

/-! ## C6 -/

/-- C6: the reported kept count never exceeds the reported total, and
they are equal exactly when the composite keys of the input rows are
pairwise distinct. -/
theorem dedup_kept_le_total (ucol icol tcol : String) (rows : List Row) :
    (dedupCounts ucol icol tcol rows).1 ≤ (dedupCounts ucol icol tcol rows).2 ∧
    ((dedupCounts ucol icol tcol rows).1 = (dedupCounts ucol icol tcol rows).2 ↔
      rows.Pairwise (fun a b => rowKey ucol icol a ≠ rowKey ucol icol b)) := by
  have hlen : (buildTable ucol icol tcol rows).length =
      ((rows.map (rowKey ucol icol)).foldl addKey []).length := by
    rw [← List.length_map (buildTable ucol icol tcol rows) Prod.fst,
        buildTable_eq_foldl, keys_foldl]
    rfl
  constructor
  · show (buildTable ucol icol tcol rows).length ≤ rows.length
    rw [hlen]
    have := addKey_foldl_length_le (rows.map (rowKey ucol icol)) []
    simpa using this
  · show (buildTable ucol icol tcol rows).length = rows.length ↔ _
    rw [hlen]
    have hiff := addKey_foldl_length_eq_iff (rows.map (rowKey ucol icol)) []
    simp only [List.length_nil, Nat.zero_add, List.not_mem_nil, not_false_iff,
      implies_true, and_true, List.length_map] at hiff
    rw [hiff]
    exact ⟨fun h => List.pairwise_map.1 h, fun h => List.pairwise_map.2 h⟩

/-! ## Helper lemmas: the stable sort of the emitter -/

theorem insertByTs_perm (x : Entry) (l : List Entry) :
    List.Perm (insertByTs x l) (x :: l) := by
  induction l with
  | nil => exact List.Perm.refl _
  | cons y ys ih =>
    by_cases hle : x.2.1 ≤ y.2.1
    · simp [insertByTs, hle]
    · simp only [insertByTs, if_neg hle]
      exact (List.Perm.cons y ih).trans (List.Perm.swap x y ys)

theorem sortByTs_perm (l : List Entry) : List.Perm (sortByTs l) l := by
  induction l with
  | nil => exact List.Perm.refl _
  | cons x xs ih =>
    exact (insertByTs_perm x (sortByTs xs)).trans (List.Perm.cons x ih)

theorem mem_insertByTs {z x : Entry} {l : List Entry} :
    z ∈ insertByTs x l ↔ z = x ∨ z ∈ l := by
  rw [(insertByTs_perm x l).mem_iff, List.mem_cons]

theorem pairwise_insertByTs (x : Entry) (l : List Entry)
    (hl : l.Pairwise (fun a b => a.2.1 ≤ b.2.1)) :
    (insertByTs x l).Pairwise (fun a b => a.2.1 ≤ b.2.1) := by
  induction l with
  | nil => simp [insertByTs]
  | cons y ys ih =>
    obtain ⟨hy, hys⟩ := List.pairwise_cons.1 hl
    by_cases hle : x.2.1 ≤ y.2.1
    · simp only [insertByTs, if_pos hle]
      refine List.pairwise_cons.2 ⟨?_, hl⟩
      intro z hz
      rcases List.mem_cons.1 hz with hz | hz
      · subst hz; exact hle
      · exact le_trans hle (hy z hz)
    · simp only [insertByTs, if_neg hle]
      refine List.pairwise_cons.2 ⟨?_, ih hys⟩
      intro z hz
      rcases mem_insertByTs.1 hz with hz | hz
      · subst hz; exact le_of_lt (not_le.1 hle)
      · exact hy z hz

theorem sortByTs_pairwise (l : List Entry) :
    (sortByTs l).Pairwise (fun a b => a.2.1 ≤ b.2.1) := by
  induction l with
  | nil => simp [sortByTs]
  | cons x xs ih => exact pairwise_insertByTs x (sortByTs xs) ih

theorem filter_insertByTs (x : Entry) (l : List Entry) (t : Int) :
    (insertByTs x l).filter (fun e => decide (e.2.1 = t)) =
      if x.2.1 = t then x :: l.filter (fun e => decide (e.2.1 = t))
      else l.filter (fun e => decide (e.2.1 = t)) := by
  induction l with
  | nil =>
    by_cases hx : x.2.1 = t <;> simp [insertByTs, List.filter_singleton, hx]
  | cons y ys ih =>
    by_cases hle : x.2.1 ≤ y.2.1
    · rw [show insertByTs x (y :: ys) = x :: y :: ys by simp [insertByTs, hle]]
      by_cases hx : x.2.1 = t <;> simp [List.filter_cons, hx]
    · rw [show insertByTs x (y :: ys) = y :: insertByTs x ys by simp [insertByTs, hle]]
      by_cases hx : x.2.1 = t
      · have hy : ¬ y.2.1 = t := fun h => hle (le_of_eq (hx.trans h.symm))
        simp [List.filter_cons, hx, hy, ih]
      · by_cases hy : y.2.1 = t <;> simp [List.filter_cons, hx, hy, ih]

/-- Stability of the emitter's sort: for each timestamp value the
entries carrying it appear in the same order as in the table. -/
theorem filter_sortByTs (l : List Entry) (t : Int) :
    (sortByTs l).filter (fun e => decide (e.2.1 = t)) =
      l.filter (fun e => decide (e.2.1 = t)) := by
  induction l with
  | nil => rfl
  | cons x xs ih =>
    show (insertByTs x (sortByTs xs)).filter _ = _
    rw [filter_insertByTs]
    by_cases hx : x.2.1 = t <;> simp [List.filter_cons, hx, ih]

/-! ## C8 -/

/-- C8: with the recency-ascending ordering selected the emitted
entries are sorted by stored recency ascending, the sort is stable
(entries with equal recency keep their table order), and the number of
rows written equals the retention table's size. -/
theorem emit_sorted_stable_count (tbl : Table) :
    (sortByTs tbl).Pairwise (fun a b => a.2.1 ≤ b.2.1) ∧
    (∀ t : Int, (sortByTs tbl).filter (fun e => decide (e.2.1 = t)) =
      tbl.filter (fun e => decide (e.2.1 = t))) ∧
    (emitRows true tbl).length = tbl.length := by
  refine ⟨sortByTs_pairwise tbl, fun t => filter_sortByTs tbl t, ?_⟩
  show ((sortByTs tbl).map _).length = tbl.length
  rw [List.length_map]
  exact (sortByTs_perm tbl).length_eq

/-! ## Helper lemmas: structure of the retention table's entries -/

theorem mem_upsert {e : Entry} {tbl : Table} {k : String × String} {t : Int} {r : Row}
    (h : e ∈ tblUpsert tbl k t r) : e ∈ tbl ∨ e = (k, (t, r)) := by
  induction tbl with
  | nil =>
    simp only [tblUpsert, List.mem_singleton] at h
    exact Or.inr h
  | cons y ys ih =>
    by_cases hy : y.1 = k
    · by_cases ht : y.2.1 ≤ t
      · simp only [tblUpsert, if_pos hy, if_pos ht, List.mem_cons] at h
        rcases h with h | h
        · exact Or.inr h
        · exact Or.inl (List.mem_cons_of_mem _ h)
      · simp only [tblUpsert, if_pos hy, if_neg ht] at h
        exact Or.inl h
    · simp only [tblUpsert, if_neg hy, List.mem_cons] at h
      rcases h with h | h
      · exact Or.inl (h ▸ List.mem_cons_self y ys)
      · rcases ih h with h | h
        · exact Or.inl (List.mem_cons_of_mem _ h)
        · exact Or.inr h

/-- Every entry of the retention table stores its own row's composite
key and recency value. -/
theorem buildTable_entry_inv (ucol icol tcol : String) (rows : List Row) :
    ∀ e ∈ buildTable ucol icol tcol rows,
      e.1 = rowKey ucol icol e.2.2 ∧ e.2.1 = rowTs tcol e.2.2 := by
  rw [buildTable_eq_foldl]
  have main : ∀ (rs : List Row) (tbl : Table),
      (∀ e ∈ tbl, e.1 = rowKey ucol icol e.2.2 ∧ e.2.1 = rowTs tcol e.2.2) →
      ∀ e ∈ rs.foldl (dedupStep ucol icol tcol) tbl,
        e.1 = rowKey ucol icol e.2.2 ∧ e.2.1 = rowTs tcol e.2.2 := by
    intro rs
    induction rs with
    | nil => intro tbl h e he; exact h e he
    | cons x xs ih =>
      intro tbl h e he
      rw [List.foldl_cons] at he
      refine ih (dedupStep ucol icol tcol tbl x) ?_ e he
      intro e' he'
      rcases mem_upsert he' with h' | h'
      · exact h e' h'
      · subst h'; exact ⟨rfl, rfl⟩
  exact main rows [] (by simp)

theorem tblFind?_eq_none {tbl : Table} {k : String × String} :
    tblFind? tbl k = none ↔ k ∉ tbl.map Prod.fst := by
  induction tbl with
  | nil => simp [tblFind?_nil]
  | cons e rest ih =>
    rw [tblFind?_cons]
    by_cases he : e.1 = k
    · simp [he]
    · simp only [if_neg he, List.map_cons, List.mem_cons]
      rw [ih]
      constructor
      · intro h hc
        rcases hc with hc | hc
        · exact he hc.symm
        · exact h hc
      · intro h hc
        exact h (Or.inr hc)

theorem addKey_foldl_nodup (l : List (String × String)) :
    ∀ ks : List (String × String), ks.Nodup → (l.foldl addKey ks).Nodup := by
  induction l with
  | nil => intro ks h; exact h
  | cons k rest ih =>
    intro ks h
    rw [List.foldl_cons]
    refine ih (addKey ks k) ?_
    by_cases hk : k ∈ ks
    · simpa [addKey, hk] using h
    · rw [show addKey ks k = ks ++ [k] by simp [addKey, hk]]
      rw [List.nodup_append]
      refine ⟨h, List.nodup_singleton k, ?_⟩
      intro a ha hb
      rw [List.mem_singleton] at hb
      subst hb
      exact hk ha

theorem buildTable_keys_nodup (ucol icol tcol : String) (rows : List Row) :
    ((buildTable ucol icol tcol rows).map Prod.fst).Nodup := by
  rw [buildTable_eq_foldl, keys_foldl]
  exact addKey_foldl_nodup _ _ List.nodup_nil

/-- Scanning rows whose keys are fresh and pairwise distinct simply
appends one entry per row. -/
theorem foldl_fresh_keys (ucol icol tcol : String) (rs : List Row) :
    ∀ (tbl : Table),
      (∀ r ∈ rs, rowKey ucol icol r ∉ tbl.map Prod.fst) →
      rs.Pairwise (fun a b => rowKey ucol icol a ≠ rowKey ucol icol b) →
      rs.foldl (dedupStep ucol icol tcol) tbl = tbl ++ rs.map (mkEntry ucol icol tcol) := by
  induction rs with
  | nil => intro tbl _ _; simp
  | cons x xs ih =>
    intro tbl hfresh hpair
    obtain ⟨hx, hxs⟩ := List.pairwise_cons.1 hpair
    rw [List.foldl_cons]
    have hfind : tblFind? tbl (rowKey ucol icol x) = none :=
      tblFind?_eq_none.2 (hfresh x (List.mem_cons_self x xs))
    have hstep : dedupStep ucol icol tcol tbl x = tbl ++ [mkEntry ucol icol tcol x] :=
      tblUpsert_absent tbl _ _ _ hfind
    rw [hstep, ih (tbl ++ [mkEntry ucol icol tcol x]) ?_ hxs]
    · simp [mkEntry]
    · intro r hr
      rw [List.map_append, List.mem_append]
      rintro (h | h)
      · exact hfresh r (List.mem_cons_of_mem _ hr) h
      · simp only [List.map_singleton, List.mem_singleton, mkEntry] at h
        exact hx r hr h.symm

/-- A unique-keyed input passes through the scan untouched: the table
is exactly one entry per row, in input order. -/
theorem buildTable_of_unique (ucol icol tcol : String) (o : List Row)
    (hpair : o.Pairwise (fun a b => rowKey ucol icol a ≠ rowKey ucol icol b)) :
    buildTable ucol icol tcol o = o.map (mkEntry ucol icol tcol) := by
  rw [buildTable_eq_foldl]
  have := foldl_fresh_keys ucol icol tcol o [] (by simp) hpair
  simpa using this

theorem sortByTs_of_sorted (l : List Entry)
    (hl : l.Pairwise (fun a b => a.2.1 ≤ b.2.1)) : sortByTs l = l := by
  induction l with
  | nil => rfl
  | cons x xs ih =>
    obtain ⟨hx, hxs⟩ := List.pairwise_cons.1 hl
    show insertByTs x (sortByTs xs) = x :: xs
    rw [ih hxs]
    cases xs with
    | nil => rfl
    | cons y ys =>
      simp [insertByTs, hx y (List.mem_cons_self y ys)]

/-- Deduplicating a unique-keyed input (already timestamp-sorted when
`keep_order` is set) returns it unchanged. -/
theorem dedupRows_of_unique (b : Bool) (ucol icol tcol : String) (o : List Row)
    (hpair : o.Pairwise (fun a b => rowKey ucol icol a ≠ rowKey ucol icol b))
    (hsort : b = true → o.Pairwise (fun a b => rowTs tcol a ≤ rowTs tcol b)) :
    dedupRows b ucol icol tcol o = o := by
  have hbuild := buildTable_of_unique ucol icol tcol o hpair
  have hcomp : ((fun e : Entry => e.2.2) ∘ mkEntry ucol icol tcol) = id :=
    funext fun r => rfl
  cases b with
  | false =>
    simp [dedupRows, emitRows, hbuild, List.map_map, hcomp]
  | true =>
    have hs := hsort rfl
    have hsorted : (o.map (mkEntry ucol icol tcol)).Pairwise
        (fun a b => a.2.1 ≤ b.2.1) :=
      List.pairwise_map.2 (by simpa [mkEntry] using hs)
    simp [dedupRows, emitRows, hbuild, sortByTs_of_sorted _ hsorted,
      List.map_map, hcomp]

/-- The rows `dedup_ratings` emits have pairwise-distinct composite keys. -/
theorem dedupRows_key_pairwise (b : Bool) (ucol icol tcol : String) (rows : List Row) :
    (dedupRows b ucol icol tcol rows).Pairwise
      (fun a b => rowKey ucol icol a ≠ rowKey ucol icol b) := by
  have hinv := buildTable_entry_inv ucol icol tcol rows
  have hnodup := buildTable_keys_nodup ucol icol tcol rows
  cases b with
  | false =>
    show ((buildTable ucol icol tcol rows).map _).Pairwise _
    refine List.pairwise_map.2 ?_
    refine List.Pairwise.imp_of_mem ?_ (List.pairwise_map.1 hnodup)
    intro a b ha hb hne
    rw [← (hinv a ha).1, ← (hinv b hb).1]
    exact hne
  | true =>
    show ((sortByTs (buildTable ucol icol tcol rows)).map _).Pairwise _
    have hperm := sortByTs_perm (buildTable ucol icol tcol rows)
    have hnodup' : ((sortByTs (buildTable ucol icol tcol rows)).map Prod.fst).Nodup :=
      ((hperm.map Prod.fst).nodup_iff).2 hnodup
    refine List.pairwise_map.2 ?_
    refine List.Pairwise.imp_of_mem ?_ (List.pairwise_map.1 hnodup')
    intro a b ha hb hne
    have ha' := hinv a (hperm.subset ha)
    have hb' := hinv b (hperm.subset hb)
    rw [← ha'.1, ← hb'.1]
    exact hne

/-- With `keep_order` set, the emitted rows are sorted by their own
(parsed) recency. -/
theorem dedupRows_sorted_true (ucol icol tcol : String) (rows : List Row) :
    (dedupRows true ucol icol tcol rows).Pairwise
      (fun a b => rowTs tcol a ≤ rowTs tcol b) := by
  have hinv := buildTable_entry_inv ucol icol tcol rows
  have hperm := sortByTs_perm (buildTable ucol icol tcol rows)
  have hsorted := sortByTs_pairwise (buildTable ucol icol tcol rows)
  show ((sortByTs (buildTable ucol icol tcol rows)).map _).Pairwise _
  refine List.pairwise_map.2 ?_
  refine List.Pairwise.imp_of_mem ?_ hsorted
  intro a b ha hb hle
  have ha' := hinv a (hperm.subset ha)
  have hb' := hinv b (hperm.subset hb)
  rw [← ha'.2, ← hb'.2]
  exact hle

/-! ## C7 -/

/-- C7: running the deduplication again on its own output (whose
composite keys are unique) reproduces that output row for row. -/
theorem dedup_idempotent (b : Bool) (ucol icol tcol : String) (rows : List Row) :
    dedupRows b ucol icol tcol (dedupRows b ucol icol tcol rows) =
      dedupRows b ucol icol tcol rows := by
  refine dedupRows_of_unique b ucol icol tcol _
    (dedupRows_key_pairwise b ucol icol tcol rows) ?_
  intro hb
  subst hb
  exact dedupRows_sorted_true ucol icol tcol rows

/-! ## C10 -/

/-- The streaming write loop of `filter_users`, characterized: it
appends exactly the rows whose user passes the keep test, in input
order, counting kept and total rows. -/
theorem filterLoop_spec (ucol : String) (keep : String → Bool) (rows : List Row) :
    ∀ (out : List Row) (kept total : Nat),
      rows.foldl (filterLoopStep ucol keep) (out, kept, total) =
        (out ++ rows.filter (fun r => keep (rowGet r ucol)),
         kept + (rows.filter (fun r => keep (rowGet r ucol))).length,
         total + rows.length) := by
  induction rows with
  | nil => intro out kept total; simp
  | cons x xs ih =>
    intro out kept total
    rw [List.foldl_cons]
    by_cases hx : keep (rowGet x ucol)
    · rw [show filterLoopStep ucol keep (out, kept, total) x =
          (out ++ [x], kept + 1, total + 1) by simp [filterLoopStep, hx]]
      rw [ih]
      simp only [List.filter_cons, hx, if_pos]
      refine Prod.ext ?_ (Prod.ext ?_ ?_) <;> simp <;> omega
    · rw [show filterLoopStep ucol keep (out, kept, total) x =
          (out, kept, total + 1) by simp [filterLoopStep, hx]]
      rw [ih]
      simp only [List.filter_cons, hx]
      refine Prod.ext ?_ (Prod.ext ?_ ?_) <;> simp <;> omega

/-- C10: `filter_users` behaves identically with `keep_order` true or
false — the written rows are the input rows whose user's total count
meets the threshold, in input order, the kept count is their number,
and the total count is the number of input rows. -/
theorem filter_users_keep_order_equiv (ucol : String) (threshold : Int) (rows : List Row) :
    filter_users ucol threshold true rows = filter_users ucol threshold false rows ∧
    (filter_users ucol threshold false rows).1 =
      rows.filter (fun r => keepUser ucol rows threshold (rowGet r ucol)) ∧
    (filter_users ucol threshold false rows).2.1 =
      (rows.filter (fun r => keepUser ucol rows threshold (rowGet r ucol))).length ∧
    (filter_users ucol threshold false rows).2.2 = rows.length := by
  have hrun : filter_users ucol threshold false rows =
      ([] ++ rows.filter (fun r => keepUser ucol rows threshold (rowGet r ucol)),
       0 + (rows.filter (fun r => keepUser ucol rows threshold (rowGet r ucol))).length,
       0 + rows.length) :=
    filterLoop_spec ucol (keepUser ucol rows threshold) rows [] 0 0
  exact ⟨rfl, by rw [hrun]; simp, by rw [hrun]; simp, by rw [hrun]; simp⟩
